import Mathlib

/-!
Shallow embedding of `src/internal/gurnel/stats.go` (package gurnel).

Timestamps are modelled as rationals measured in hours, so that
`t.Sub(minDate).Hours()` becomes plain subtraction.  Go maps are modelled
as association lists; the randomized iteration order of a Go map is
modelled by an explicit enumeration parameter passed to the report step.
IEEE-754 division is modelled on ℚ, with `none` standing for the
non-finite values (±Inf, NaN) that Go produces on division by zero.
Go slice expressions that can panic are modelled with `Option`.
-/

namespace Gurnel

attribute [local semireducible] Rat.mul Rat.add Rat.inv Rat.sub

/-- Per-file result produced by `entryScanner` (stats.go lines 132-136). -/
structure Result where
  wordMap : List (String × Nat)
  date : ℚ
  err : Option String
deriving DecidableEq

/-- Go map read `m[w]` with default 0, for word-count maps. -/
def lookupNat : List (String × Nat) → String → Nat
  | [], _ => 0
  | p :: rest, w => if p.1 = w then p.2 else lookupNat rest w

/-- Go map read `refFreqs[word]` with default 0 (stats.go line 98). -/
def lookupQ : List (String × ℚ) → String → ℚ
  | [], _ => 0
  | p :: rest, w => if p.1 = w then p.2 else lookupQ rest w

/-- Go map write `wordMap[word] += count` (stats.go line 66). -/
def bump : List (String × Nat) → String → Nat → List (String × Nat)
  | [], w, c => [(w, c)]
  | p :: rest, w, c => if p.1 = w then (p.1, p.2 + c) :: rest else p :: bump rest w c

/-- Merging one per-file word map into the running map (stats.go lines 65-67). -/
def mergeMap (m fm : List (String × Nat)) : List (String × Nat) :=
  fm.foldl (fun acc p => bump acc p.1 p.2) m

/-- Aggregator state: `entryCount`, `wordMap`, `minDate` (stats.go lines 56-59). -/
structure AggState where
  entryCount : Nat
  wordMap : List (String × Nat)
  minDate : ℚ
deriving DecidableEq

/-- One successful iteration of the aggregation loop (stats.go lines 64-70):
increment the entry count, merge the word map, and keep the earlier date
(`minDate.After(r.date)` replaces `minDate` by the strictly earlier date,
which is exactly `min`). -/
def aggStep (st : AggState) (r : Result) : AggState :=
  ⟨st.entryCount + 1, mergeMap st.wordMap r.wordMap, min st.minDate r.date⟩

/-- Aggregation loop (stats.go lines 60-71): the first per-file error returns
immediately, otherwise the state is updated by `aggStep`. -/
def aggGo : AggState → List Result → Except String AggState
  | st, [] => .ok st
  | st, r :: rs =>
    match r.err with
    | some e => .error e
    | none => aggGo (aggStep st r) rs

/-- Aggregation from the initial state `t = time.Now()`, `minDate = t`
(stats.go lines 56-59). -/
def aggregate (t : ℚ) (rs : List Result) : Except String AggState :=
  aggGo ⟨0, [], t⟩ rs

/-- Scalar statistics printed at stats.go lines 76-87. -/
structure ScalarStats where
  entryCount : Nat
  minDate : ℚ
  percent : Option ℚ
  totalWords : Nat
  avgWords : ℚ
deriving DecidableEq

/-- IEEE-754 float division: a zero divisor yields a non-finite value
(±Inf or NaN), modelled as `none`. -/
def floatDiv (a b : ℚ) : Option ℚ := if b = 0 then none else some (a / b)

/-- Relative frequency of one word (stats.go lines 96-105):
`frequency > refFrequency` gives `frequency / refFrequency` when
`refFrequency > 0` and otherwise leaves the zero value; the remaining case
gives `(refFrequency / frequency) * -1`. -/
def relFrequency (wordCount : Nat) (refT : List (String × ℚ)) (w : String) (count : Nat) : ℚ :=
  let frequency : ℚ := (count : ℚ) / (wordCount : ℚ)
  let refFrequency : ℚ := lookupQ refT w
  if refFrequency < frequency then
    (if 0 < refFrequency then frequency / refFrequency else 0)
  else (refFrequency / frequency) * (-1)

/-- One element of the `wordStats` slice (stats.go lines 138-142). -/
structure WordStat where
  word : String
  occurrences : Nat
  frequency : ℚ
deriving DecidableEq

/-- The `wordStats` slice built from an enumeration of the merged word map
(stats.go lines 93-108). -/
def wordStatsOf (wordCount : Nat) (refT : List (String × ℚ))
    (enum : List (String × Nat)) : List WordStat :=
  enum.map fun p => ⟨p.1, p.2, relFrequency wordCount refT p.1 p.2⟩

/-- Insertion step of the sort model. -/
def insertStat (x : WordStat) : List WordStat → List WordStat
  | [] => [x]
  | y :: ys => if y.frequency ≤ x.frequency then x :: y :: ys else y :: insertStat x ys

/-- Model of `sort.Slice(wordStats, less i j := frequency i > frequency j)`
(stats.go lines 110-112): the output is ordered by non-increasing frequency
and is a permutation of the input.  The unstable sort's freedom among tied
elements is absorbed by the enumeration-order parameter of the report step. -/
def sortStats : List WordStat → List WordStat
  | [] => []
  | x :: xs => insertStat x (sortStats xs)

/-- The constant `topUnusualWordCount` (stats.go line 114). -/
def topUnusualWordCount : Nat := 100

/-- Go slice expression `wordStats[:topUnusualWordCount]` (stats.go line 117):
out of range (a runtime panic, modelled `none`) when the slice has fewer than
100 entries. -/
def topSlice (l : List WordStat) : Option (List WordStat) :=
  if topUnusualWordCount ≤ l.length then some (l.take topUnusualWordCount) else none

/-- The loop `for i := 1; i <= topUnusualWordCount; i++` reading
`wordStats[len(wordStats)-i]` (stats.go lines 123-126): the last 100 entries
read backwards from the end; index out of range (modelled `none`) when there
are fewer than 100 entries. -/
def bottomSlice (l : List WordStat) : Option (List WordStat) :=
  if topUnusualWordCount ≤ l.length then
    some ((l.drop (l.length - topUnusualWordCount)).reverse)
  else none

/-- The two ranked lists printed at stats.go lines 114-127, as
(word, relative frequency) pairs in print order. -/
structure RankedLists where
  topFrequent : List (String × ℚ)
  topInfrequent : List (String × ℚ)
deriving DecidableEq

/-- Everything `Run` prints: the scalar statistics and, when the reference
table is non-empty and the slicing did not panic, the two ranked lists. -/
structure Report where
  scalars : ScalarStats
  ranked : Option RankedLists
deriving DecidableEq

/-- Outcome of `Run` (stats.go lines 29-130): a returned (non-nil) error, a
runtime panic from the slicing at lines 117/124 (carrying the scalar
statistics already printed at lines 79-87), or a nil return with the printed
report (`none` when no entries were found, so nothing was printed). -/
inductive RunResult where
  | err (e : String)
  | crash (printed : ScalarStats)
  | ok (report : Option Report)
deriving DecidableEq

/-- Scalar statistics computed at stats.go lines 76-87: the percent of days
journaled divides `entryCount` by `math.Floor(t.Sub(minDate).Hours() / 24)`
without guarding against a zero divisor; the total word count sums the merged
word map. -/
def scalarsStep (t : ℚ) (st : AggState) (enum : List (String × Nat)) : ScalarStats :=
  let divisor : ℚ := ((⌊(t - st.minDate) / 24⌋ : ℤ) : ℚ)
  let wordCount : Nat := (enum.map Prod.snd).sum
  { entryCount := st.entryCount
    minDate := st.minDate
    percent := floatDiv (st.entryCount : ℚ) divisor
    totalWords := wordCount
    avgWords := (wordCount : ℚ) / (st.entryCount : ℚ) }

/-- Ranked-list step (stats.go lines 89-127): skipped when the reference
table is empty (line 90); otherwise builds `wordStats` from the map
enumeration, sorts it, and slices the top and bottom 100 entries, panicking
when fewer than 100 distinct words exist. -/
def rankedStep (scal : ScalarStats) (refT : List (String × ℚ))
    (enum : List (String × Nat)) : RunResult :=
  if refT.length = 0 then .ok (some ⟨scal, none⟩)
  else
    let sorted := sortStats (wordStatsOf scal.totalWords refT enum)
    match topSlice sorted, bottomSlice sorted with
    | some topL, some botL =>
        .ok (some ⟨scal, some ⟨topL.map fun ws => (ws.word, ws.frequency),
                               botL.map fun ws => (ws.word, ws.frequency)⟩⟩)
    | _, _ => .crash scal

/-- The body of `Run` after the walk is wired up (stats.go lines 56-129), as a
function of the clock reading `t`, the stream of per-file results, the
walker's terminal error, the reference table, and the iteration order `enum`
of the merged word map (Go map iteration order is randomized, so it is an
explicit parameter; a faithful run uses a permutation of the merged map). -/
def runGo (t : ℚ) (results : List Result) (walkerErr : Option String)
    (refT : List (String × ℚ)) (enum : List (String × Nat)) : RunResult :=
  match aggregate t results with
  | .error e => .err e
  | .ok st =>
    match walkerErr with
    | some e => .err e
    | none =>
      if 0 < st.entryCount then rankedStep (scalarsStep t st enum) refT enum
      else .ok none

/-- Scalar statistics actually printed by a run (the panic at lines 117/124
happens after the scalar block at lines 76-87 has printed). -/
def scalarsOf : RunResult → Option ScalarStats
  | .err _ => none
  | .crash s => some s
  | .ok none => none
  | .ok (some rep) => some rep.scalars

/-- The sequences of relative-frequency values in the two printed ranked
lists, when they were printed. -/
def freqSeqs : RunResult → Option (List ℚ × List ℚ)
  | .ok (some rep) =>
    match rep.ranked with
    | some rl => some (rl.topFrequent.map Prod.snd, rl.topInfrequent.map Prod.snd)
    | none => none
  | _ => none

/-- The ranked lists actually printed by a run, when the run returned nil
after printing them. -/
def listsOf : RunResult → Option RankedLists
  | .ok (some rep) => rep.ranked
  | _ => none

/-- Total number of occurrences of the word `v` recorded in a per-file word
map (the amount `wordMap[word] += count` adds for `v` over one result). -/
def fmCount (fm : List (String × Nat)) (v : String) : Nat :=
  (fm.map fun p => if p.1 = v then p.2 else 0).sum

/-- File metadata observed by the walk callback (stats.go lines 152-166). -/
structure FileInfo where
  path : String
  base : String
  isRegular : Bool
  isEntry : Bool
deriving DecidableEq

/-- A file that can ever be emitted: regular and recognized as an entry
(stats.go line 156). -/
def accept (f : FileInfo) : Bool := f.isRegular && f.isEntry

/-- Walk callback iterated over the files in walk order (stats.go lines
152-166): a regular entry file whose base name is unseen is emitted and its
base name marked visited; everything else is skipped. -/
def walkGo : List String → List FileInfo → List FileInfo
  | _, [] => []
  | visited, f :: fs =>
    if f.isRegular && !(visited.contains f.base) && f.isEntry then
      f :: walkGo (f.base :: visited) fs
    else walkGo visited fs

/-- The sequential filtering behavior of `walkFiles` (stats.go lines 144-169)
over the files of the tree in walk order, starting from an empty visited set
(line 147). -/
def walkFiles (fs : List FileInfo) : List FileInfo := walkGo [] fs

/-- A merged vocabulary of 100 distinct words, each observed once: the
smallest vocabulary on which the ranked-list slicing does not panic. -/
def cWords : List (String × Nat) :=
  (List.range topUnusualWordCount).map fun n => ("w" ++ toString n, 1)

/-- A single successful per-file result carrying the 100-word vocabulary. -/
def cResult : Result := ⟨cWords, 0, none⟩

/-- A non-empty reference table mentioning none of the observed words, so
every observed word ties at relative frequency 0. -/
def cRef : List (String × ℚ) := [("zz", 1/2)]

/-- A successful per-file result used to instantiate theorems. -/
def wResA : Result := ⟨[("alpha", 2)], 3, none⟩

/-- Another successful per-file result used to instantiate theorems. -/
def wResB : Result := ⟨[("beta", 1)], 1, none⟩

/-- A failed per-file result used to instantiate theorems. -/
def wResBad : Result := ⟨[], 0, some "load failed"⟩

lemma lookupNat_bump (m : List (String × Nat)) (w : String) (c : Nat) (v : String) :
    lookupNat (bump m w c) v = lookupNat m v + (if w = v then c else 0) := by
  induction m with
  | nil =>
    by_cases h : w = v <;> simp [bump, lookupNat, h]
  | cons p rest ih =>
    by_cases hp : p.1 = w
    · by_cases hv : p.1 = v
      · have hwv : w = v := hp ▸ hv
        simp [bump, lookupNat, hp, hv, hwv]
      · have hwv : ¬ w = v := fun h => hv (h ▸ hp)
        simp [bump, lookupNat, hp, hv, hwv]
    · by_cases hv : p.1 = v
      · have hwv : ¬ w = v := fun h => hp (hv.trans h.symm)
        have hvw : ¬ v = w := fun h => hwv h.symm
        simp [bump, lookupNat, hp, hv, hwv, hvw]
      · simp [bump, lookupNat, hp, hv, ih]

lemma lookupNat_mergeMap (fm : List (String × Nat)) (m : List (String × Nat)) (v : String) :
    lookupNat (mergeMap m fm) v = lookupNat m v + fmCount fm v := by
  induction fm generalizing m with
  | nil => simp [mergeMap, fmCount]
  | cons p fm ih =>
    have hstep : mergeMap m (p :: fm) = mergeMap (bump m p.1 p.2) fm := rfl
    rw [hstep, ih, lookupNat_bump]
    simp [fmCount]
    omega

lemma foldl_min_le_init (l : List ℚ) (a : ℚ) : l.foldl min a ≤ a := by
  induction l generalizing a with
  | nil => exact le_refl a
  | cons x l ih => exact le_trans (ih (min a x)) (min_le_left a x)

lemma foldl_min_le_mem (l : List ℚ) (a x : ℚ) (hx : x ∈ l) : l.foldl min a ≤ x := by
  induction l generalizing a with
  | nil => cases hx
  | cons y l ih =>
    rcases List.mem_cons.mp hx with h | h
    · subst h
      exact le_trans (foldl_min_le_init l (min a x)) (min_le_right a x)
    · exact ih (min a y) h

lemma foldl_min_eq_init_or_mem (l : List ℚ) (a : ℚ) :
    l.foldl min a = a ∨ ∃ x ∈ l, l.foldl min a = x := by
  induction l generalizing a with
  | nil => exact Or.inl rfl
  | cons y l ih =>
    rcases ih (min a y) with h | ⟨x, hx, hfx⟩
    · rcases min_choice a y with hm | hm
      · exact Or.inl (by rw [List.foldl_cons, h, hm])
      · exact Or.inr ⟨y, List.mem_cons_self y l, by rw [List.foldl_cons, h, hm]⟩
    · exact Or.inr ⟨x, List.mem_cons_of_mem y hx, hfx⟩

lemma lt_foldl_min (l : List ℚ) (a c : ℚ) (hca : c < a) (hl : ∀ x ∈ l, c < x) :
    c < l.foldl min a := by
  induction l generalizing a with
  | nil => exact hca
  | cons y l ih =>
    exact ih (min a y) (lt_min hca (hl y (List.mem_cons_self y l)))
      fun x hx => hl x (List.mem_cons_of_mem y hx)

lemma foldl_min_perm {l₁ l₂ : List ℚ} (h : l₁.Perm l₂) (a : ℚ) :
    l₁.foldl min a = l₂.foldl min a := by
  induction h generalizing a with
  | nil => rfl
  | cons x _ ih => exact ih (min a x)
  | swap x y l =>
    simp only [List.foldl_cons]
    rw [min_right_comm]
  | trans _ _ ih₁ ih₂ => exact (ih₁ a).trans (ih₂ a)

lemma aggGo_ok_of_success (rs : List Result) (st : AggState)
    (hs : ∀ r ∈ rs, r.err = none) :
    ∃ stf, aggGo st rs = .ok stf ∧
      stf.entryCount = st.entryCount + rs.length ∧
      (∀ v, lookupNat stf.wordMap v =
        lookupNat st.wordMap v + (rs.map fun r => fmCount r.wordMap v).sum) ∧
      stf.minDate = (rs.map Result.date).foldl min st.minDate := by
  induction rs generalizing st with
  | nil => exact ⟨st, rfl, by simp, fun v => by simp, by simp⟩
  | cons r rs ih =>
    have hr : r.err = none := hs r (List.mem_cons_self r rs)
    obtain ⟨stf, hok, hec, hwm, hmd⟩ :=
      ih (aggStep st r) fun x hx => hs x (List.mem_cons_of_mem r hx)
    refine ⟨stf, ?_, ?_, ?_, ?_⟩
    · rw [aggGo, hr]
      exact hok
    · rw [hec]
      simp [aggStep]
      omega
    · intro v
      rw [hwm v]
      simp [aggStep, lookupNat_mergeMap]
      omega
    · rw [hmd]
      simp [aggStep]

lemma aggGo_ok_success {st stf : AggState} {rs : List Result}
    (h : aggGo st rs = .ok stf) : ∀ r ∈ rs, r.err = none := by
  induction rs generalizing st with
  | nil => intro r hr; cases hr
  | cons r rs ih =>
    intro x hx
    rcases he : r.err with _ | e
    · rcases List.mem_cons.mp hx with hxr | hxs
      · exact hxr ▸ he
      · rw [aggGo, he] at h
        exact ih h x hxs
    · rw [aggGo, he] at h
      cases h

lemma aggGo_first_error (pre : List Result) (st : AggState) (r : Result)
    (rest : List Result) (e : String) (hpre : ∀ x ∈ pre, x.err = none)
    (hr : r.err = some e) :
    aggGo st (pre ++ r :: rest) = .error e := by
  induction pre generalizing st with
  | nil => rw [List.nil_append, aggGo, hr]
  | cons x pre ih =>
    have hx : x.err = none := hpre x (List.mem_cons_self x pre)
    rw [List.cons_append, aggGo, hx]
    exact ih (aggStep st x) fun y hy => hpre y (List.mem_cons_of_mem x hy)

lemma insertStat_perm (x : WordStat) (l : List WordStat) :
    (insertStat x l).Perm (x :: l) := by
  induction l with
  | nil => exact List.Perm.refl _
  | cons y ys ih =>
    by_cases h : y.frequency ≤ x.frequency
    · simp [insertStat, h]
    · simp only [insertStat, if_neg h]
      exact (ih.cons y).trans (List.Perm.swap x y ys)

lemma sortStats_perm (l : List WordStat) : (sortStats l).Perm l := by
  induction l with
  | nil => exact List.Perm.refl _
  | cons x xs ih => exact (insertStat_perm x (sortStats xs)).trans (ih.cons x)

lemma insertStat_pairwise (x : WordStat) (l : List WordStat)
    (h : l.Pairwise fun a b => b.frequency ≤ a.frequency) :
    (insertStat x l).Pairwise fun a b => b.frequency ≤ a.frequency := by
  induction l with
  | nil => simp [insertStat]
  | cons y ys ih =>
    rcases List.pairwise_cons.mp h with ⟨hy, hys⟩
    by_cases hle : y.frequency ≤ x.frequency
    · simp only [insertStat, if_pos hle]
      refine List.pairwise_cons.mpr ⟨?_, h⟩
      intro b hb
      rcases List.mem_cons.mp hb with rfl | hb
      · exact hle
      · exact (hy b hb).trans hle
    · simp only [insertStat, if_neg hle]
      refine List.pairwise_cons.mpr ⟨?_, ih hys⟩
      intro b hb
      have hb' : b ∈ x :: ys := (insertStat_perm x ys).mem_iff.mp hb
      rcases List.mem_cons.mp hb' with rfl | hb'
      · exact le_of_lt (lt_of_not_le hle)
      · exact hy b hb'

lemma sortStats_pairwise (l : List WordStat) :
    (sortStats l).Pairwise fun a b => b.frequency ≤ a.frequency := by
  induction l with
  | nil => simp [sortStats]
  | cons x xs ih => exact insertStat_pairwise x (sortStats xs) ih

lemma sortStats_map_freq_eq {l₁ l₂ : List WordStat} (h : l₁.Perm l₂) :
    (sortStats l₁).map WordStat.frequency = (sortStats l₂).map WordStat.frequency := by
  have hp : ((sortStats l₁).map WordStat.frequency).Perm
      ((sortStats l₂).map WordStat.frequency) :=
    ((sortStats_perm l₁).trans (h.trans (sortStats_perm l₂).symm)).map WordStat.frequency
  have hs₁ : ((sortStats l₁).map WordStat.frequency).Pairwise (fun a b : ℚ => b ≤ a) :=
    (sortStats_pairwise l₁).map WordStat.frequency fun _ _ hab => hab
  have hs₂ : ((sortStats l₂).map WordStat.frequency).Pairwise (fun a b : ℚ => b ≤ a) :=
    (sortStats_pairwise l₂).map WordStat.frequency fun _ _ hab => hab
  exact @List.eq_of_perm_of_sorted ℚ (fun a b => b ≤ a)
    ⟨fun _ _ h₁ h₂ => le_antisymm h₂ h₁⟩ _ _ hp hs₁ hs₂

lemma list_contains_iff (l : List String) (b : String) : l.contains b = true ↔ b ∈ l :=
  List.elem_iff

lemma walkGo_cons (visited : List String) (g : FileInfo) (fs : List FileInfo) :
    walkGo visited (g :: fs) =
      if accept g = true ∧ g.base ∉ visited then g :: walkGo (g.base :: visited) fs
      else walkGo visited fs := by
  simp only [walkGo, accept]
  by_cases h1 : g.isRegular = true <;> by_cases h2 : g.isEntry = true <;>
    by_cases h3 : g.base ∈ visited <;>
      simp [h1, h2, h3, list_contains_iff]

lemma walkGo_nodup (fs : List FileInfo) (visited : List String) :
    (∀ b ∈ visited, b ∉ (walkGo visited fs).map FileInfo.base) ∧
      ((walkGo visited fs).map FileInfo.base).Nodup := by
  induction fs generalizing visited with
  | nil => simp [walkGo]
  | cons g fs ih =>
    rw [walkGo_cons]
    by_cases hg : accept g = true ∧ g.base ∉ visited
    · rw [if_pos hg]
      obtain ⟨ih1, ih2⟩ := ih (g.base :: visited)
      constructor
      · intro b hb
        simp only [List.map_cons, List.mem_cons]
        rintro (h | h)
        · exact hg.2 (h ▸ hb)
        · exact ih1 b (List.mem_cons_of_mem _ hb) h
      · simp only [List.map_cons]
        exact List.nodup_cons.mpr ⟨ih1 g.base (List.mem_cons_self _ _), ih2⟩
    · rw [if_neg hg]
      exact ih visited

lemma walkGo_mem (fs : List FileInfo) (visited : List String) (f : FileInfo) :
    f ∈ walkGo visited fs ↔
      ∃ pre post, fs = pre ++ f :: post ∧ accept f = true ∧ f.base ∉ visited ∧
        f.base ∉ (pre.filter accept).map FileInfo.base := by
  induction fs generalizing visited with
  | nil =>
    simp only [walkGo, List.not_mem_nil, false_iff, not_exists]
    rintro pre post ⟨h, -⟩
    exact absurd h.symm (by simp)
  | cons g fs ih =>
    rw [walkGo_cons]
    by_cases hg : accept g = true ∧ g.base ∉ visited
    · rw [if_pos hg]
      constructor
      · intro hf
        rcases List.mem_cons.mp hf with rfl | hf
        · exact ⟨[], fs, rfl, hg.1, hg.2, by simp⟩
        · obtain ⟨pre, post, hfs, hacc, hvis, hbases⟩ := (ih _).mp hf
          have hne : f.base ≠ g.base := fun h => hvis (h ▸ List.mem_cons_self _ _)
          refine ⟨g :: pre, post, by rw [hfs]; rfl, hacc,
            fun hv => hvis (List.mem_cons_of_mem _ hv), ?_⟩
          rw [List.filter_cons, if_pos hg.1]
          simp only [List.map_cons, List.mem_cons]
          rintro (h | h)
          · exact hne h
          · exact hbases h
      · rintro ⟨pre, post, hfs, hacc, hvis, hbases⟩
        cases pre with
        | nil =>
          rw [List.nil_append] at hfs
          injection hfs with hgf hfs
          exact hgf ▸ List.mem_cons_self _ _
        | cons q pre =>
          rw [List.cons_append] at hfs
          injection hfs with hgq hfs
          subst hgq
          rw [List.filter_cons, if_pos hg.1] at hbases
          simp only [List.map_cons, List.mem_cons, not_or] at hbases
          refine List.mem_cons_of_mem g ((ih _).mpr ⟨pre, post, hfs, hacc, ?_, hbases.2⟩)
          intro hv
          rcases List.mem_cons.mp hv with h | h
          · exact hbases.1 h
          · exact hvis h
    · rw [if_neg hg]
      rw [ih visited]
      constructor
      · rintro ⟨pre, post, hfs, hacc, hvis, hbases⟩
        refine ⟨g :: pre, post, by rw [hfs]; rfl, hacc, hvis, ?_⟩
        rw [List.filter_cons]
        by_cases hga : accept g = true
        · rw [if_pos hga]
          have hgv : g.base ∈ visited := by
            by_contra hnot
            exact hg ⟨hga, hnot⟩
          simp only [List.map_cons, List.mem_cons]
          rintro (h | h)
          · exact hvis (h ▸ hgv)
          · exact hbases h
        · rw [if_neg hga]
          exact hbases
      · rintro ⟨pre, post, hfs, hacc, hvis, hbases⟩
        cases pre with
        | nil =>
          rw [List.nil_append] at hfs
          injection hfs with hgf hfs
          subst hgf
          exact absurd ⟨hacc, hvis⟩ hg
        | cons q pre =>
          rw [List.cons_append] at hfs
          injection hfs with hgq hfs
          subst hgq
          refine ⟨pre, post, hfs, hacc, hvis, ?_⟩
          rw [List.filter_cons] at hbases
          by_cases hga : accept g = true
          · rw [if_pos hga] at hbases
            simp only [List.map_cons, List.mem_cons, not_or] at hbases
            exact hbases.2
          · rw [if_neg hga] at hbases
            exact hbases

lemma scalarsOf_rankedStep (scal : ScalarStats) (refT : List (String × ℚ))
    (enum : List (String × Nat)) :
    scalarsOf (rankedStep scal refT enum) = some scal := by
  simp only [rankedStep]
  split
  · rfl
  · split <;> rfl

lemma scalarsStep_perm_eq (t : ℚ) (st : AggState) {enum₁ enum₂ : List (String × Nat)}
    (hp : enum₁.Perm enum₂) :
    scalarsStep t st enum₁ = scalarsStep t st enum₂ := by
  have hsum : (enum₁.map Prod.snd).sum = (enum₂.map Prod.snd).sum :=
    (hp.map Prod.snd).sum_eq
  simp only [scalarsStep, hsum]

lemma freqSeqs_rankedStep_eq (scal : ScalarStats) (refT : List (String × ℚ))
    {enum₁ enum₂ : List (String × Nat)} (hp : enum₁.Perm enum₂) :
    freqSeqs (rankedStep scal refT enum₁) = freqSeqs (rankedStep scal refT enum₂) := by
  by_cases h : refT.length = 0
  · simp only [rankedStep, if_pos h]
  · have hws : (wordStatsOf scal.totalWords refT enum₁).Perm
        (wordStatsOf scal.totalWords refT enum₂) := hp.map _
    simp only [rankedStep, if_neg h]
    set s₁ := sortStats (wordStatsOf scal.totalWords refT enum₁) with hs₁
    set s₂ := sortStats (wordStatsOf scal.totalWords refT enum₂) with hs₂
    have hperm : s₁.Perm s₂ := (sortStats_perm _).trans (hws.trans (sortStats_perm _).symm)
    have hlen : s₁.length = s₂.length := hperm.length_eq
    have hfreq : s₁.map WordStat.frequency = s₂.map WordStat.frequency :=
      sortStats_map_freq_eq hws
    by_cases hn : topUnusualWordCount ≤ s₁.length
    · have hn₂ : topUnusualWordCount ≤ s₂.length := hlen ▸ hn
      have htop : (s₁.take topUnusualWordCount).map WordStat.frequency =
          (s₂.take topUnusualWordCount).map WordStat.frequency := by
        rw [List.map_take, List.map_take, hfreq]
      have hbot : ((s₁.drop (s₁.length - topUnusualWordCount)).reverse).map WordStat.frequency =
          ((s₂.drop (s₂.length - topUnusualWordCount)).reverse).map WordStat.frequency := by
        rw [List.map_reverse, List.map_reverse, List.map_drop, List.map_drop, hfreq, hlen]
      simp only [topSlice, bottomSlice, if_pos hn, if_pos hn₂, freqSeqs, List.map_map]
      have hcomp : (Prod.snd ∘ fun ws : WordStat => (ws.word, ws.frequency)) =
          WordStat.frequency := rfl
      rw [hcomp, htop, hbot]
    · have hn₂ : ¬ topUnusualWordCount ≤ s₂.length := fun hh => hn (hlen ▸ hh)
      simp only [topSlice, bottomSlice, if_neg hn, if_neg hn₂]

/-- C1: the claim says a run whose merged vocabulary has fewer than 100
distinct words (with a non-empty reference table) does not crash because both
ranked lists are capped at min(100, distinct word count).  The code has no
cap: `wordStats[:100]` (stats.go line 117) is evaluated unguarded, and with a
single distinct word the slice bound exceeds the slice's capacity, a runtime
panic.  This theorem evaluates the embedded run at that failing input: one
entry containing one word, a non-empty reference table, and the run ends in
the panic outcome after printing the scalar statistics. -/
theorem c1_ranked_list_crash_on_small_vocabulary :
    runGo 24 [⟨[("hello", 1)], 0, none⟩] none [("zz", 1/2)] [("hello", 1)] =
      .crash ⟨1, 0, some 1, 1, 1⟩ := by decide

/-- C3: if any per-file result carries a failure, the aggregation returns the
first such error as a non-nil overall error, stops consuming at that result
(the outcome is the same whatever results remain undrained), and the run
emits no scalar statistics (the error is returned before the report step). -/
theorem c3_first_error_stops_aggregation (t : ℚ) (wErr : Option String)
    (refT : List (String × ℚ)) (enum : List (String × Nat))
    (pre rest : List Result) (r : Result) (e : String)
    (hpre : ∀ x ∈ pre, x.err = none) (hr : r.err = some e) :
    aggregate t (pre ++ r :: rest) = .error e ∧
    aggregate t (pre ++ r :: rest) = aggregate t (pre ++ [r]) ∧
    runGo t (pre ++ r :: rest) wErr refT enum = .err e := by
  have h₁ : aggregate t (pre ++ r :: rest) = .error e :=
    aggGo_first_error pre _ r rest e hpre hr
  have h₂ : aggregate t (pre ++ [r]) = .error e :=
    aggGo_first_error pre _ r [] e hpre hr
  refine ⟨h₁, h₁.trans h₂.symm, ?_⟩
  unfold runGo
  rw [h₁]

/-- Witness for C3 at a concrete stream: one successful result, then a failed
one, then another successful one that is never consumed. -/
theorem c3_first_error_stops_aggregation_witness :
    (∀ x ∈ [wResA], x.err = none) ∧ wResBad.err = some "load failed" ∧
    (aggregate 0 ([wResA] ++ wResBad :: [wResB]) = .error "load failed" ∧
     aggregate 0 ([wResA] ++ wResBad :: [wResB]) = aggregate 0 ([wResA] ++ [wResBad]) ∧
     runGo 0 ([wResA] ++ wResBad :: [wResB]) none [] [] = .err "load failed") :=
  ⟨by decide, by decide,
    c3_first_error_stops_aggregation 0 none [] [] [wResA] [wResB] wResBad
      "load failed" (by decide) (by decide)⟩

/-- C5: when every per-file result succeeded but the walker's terminal-error
slot holds an error, the run returns that walker error as the overall
failure. -/
theorem c5_walker_error_is_overall_failure (t : ℚ) (results : List Result)
    (refT : List (String × ℚ)) (enum : List (String × Nat)) (e : String)
    (hs : ∀ r ∈ results, r.err = none) :
    runGo t results (some e) refT enum = .err e := by
  obtain ⟨st, hok, -, -, -⟩ := aggGo_ok_of_success results ⟨0, [], t⟩ hs
  unfold runGo aggregate
  rw [hok]

/-- Witness for C5 at a concrete stream with one successful result. -/
theorem c5_walker_error_is_overall_failure_witness :
    (∀ r ∈ [wResA], r.err = none) ∧
    runGo 0 [wResA] (some "walk canceled") [] [] = .err "walk canceled" :=
  ⟨by decide,
    c5_walker_error_is_overall_failure 0 [wResA] [] [] "walk canceled" (by decide)⟩

/-- C8: when aggregation ends with zero entries and no error, the report
step is skipped entirely (no statistics, no division by the entry count) and
the run returns the nil success outcome. -/
theorem c8_zero_entries_skips_report (t : ℚ) (results : List Result)
    (refT : List (String × ℚ)) (enum : List (String × Nat)) (st : AggState)
    (hAgg : aggregate t results = .ok st) (h0 : st.entryCount = 0) :
    runGo t results none refT enum = .ok none := by
  unfold runGo
  rw [hAgg]
  simp [h0]

/-- Witness for C8 at the empty result stream. -/
theorem c8_zero_entries_skips_report_witness :
    aggregate 0 [] = .ok ⟨0, [], 0⟩ ∧ (⟨0, [], 0⟩ : AggState).entryCount = 0 ∧
    runGo 0 [] none [] [] = .ok none :=
  ⟨rfl, rfl, c8_zero_entries_skips_report 0 [] [] [] ⟨0, [], 0⟩ rfl rfl⟩

/-- C4: for a word with observed frequency `f = count/totalWords` and
reference frequency `r` (0 when absent, never negative in a frequency
table), the computed relative frequency is `f/r` when `f > r` and `r > 0`,
is `0` when `f > r` and `r = 0`, and is `-(r/f)` otherwise; the word-stats
slice is then sorted by non-increasing relative frequency, keeping all
words. -/
theorem c4_relative_frequency_formula (wordCount : Nat) (refT : List (String × ℚ))
    (w : String) (count : Nat) (enum : List (String × Nat))
    (href : 0 ≤ lookupQ refT w) :
    ((lookupQ refT w < (count : ℚ) / (wordCount : ℚ) → 0 < lookupQ refT w →
        relFrequency wordCount refT w count =
          ((count : ℚ) / (wordCount : ℚ)) / lookupQ refT w) ∧
     (lookupQ refT w < (count : ℚ) / (wordCount : ℚ) → lookupQ refT w = 0 →
        relFrequency wordCount refT w count = 0) ∧
     (¬ lookupQ refT w < (count : ℚ) / (wordCount : ℚ) →
        relFrequency wordCount refT w count =
          -(lookupQ refT w / ((count : ℚ) / (wordCount : ℚ))))) ∧
    (sortStats (wordStatsOf wordCount refT enum)).Pairwise
      (fun a b => b.frequency ≤ a.frequency) ∧
    (sortStats (wordStatsOf wordCount refT enum)).Perm (wordStatsOf wordCount refT enum) := by
  refine ⟨⟨?_, ?_, ?_⟩, sortStats_pairwise _, sortStats_perm _⟩
  · intro h1 h2
    simp only [relFrequency, if_pos h1, if_pos h2]
  · intro h1 h2
    simp only [relFrequency, if_pos h1]
    rw [h2]
    simp
  · intro h1
    simp only [relFrequency, if_neg h1]
    ring

/-- Witness for C4 with one word observed once out of two, against a table
carrying reference frequency 1/4 for it. -/
theorem c4_relative_frequency_formula_witness :
    (0 : ℚ) ≤ lookupQ [("alpha", 1/4)] "alpha" ∧
    (((lookupQ [("alpha", 1/4)] "alpha" < (1 : ℚ) / (2 : ℚ) →
        0 < lookupQ [("alpha", 1/4)] "alpha" →
        relFrequency 2 [("alpha", 1/4)] "alpha" 1 =
          ((1 : ℚ) / (2 : ℚ)) / lookupQ [("alpha", 1/4)] "alpha") ∧
      (lookupQ [("alpha", 1/4)] "alpha" < (1 : ℚ) / (2 : ℚ) →
        lookupQ [("alpha", 1/4)] "alpha" = 0 →
        relFrequency 2 [("alpha", 1/4)] "alpha" 1 = 0) ∧
      (¬ lookupQ [("alpha", 1/4)] "alpha" < (1 : ℚ) / (2 : ℚ) →
        relFrequency 2 [("alpha", 1/4)] "alpha" 1 =
          -(lookupQ [("alpha", 1/4)] "alpha" / ((1 : ℚ) / (2 : ℚ))))) ∧
     (sortStats (wordStatsOf 2 [("alpha", 1/4)] [("alpha", 1)])).Pairwise
       (fun a b => b.frequency ≤ a.frequency) ∧
     (sortStats (wordStatsOf 2 [("alpha", 1/4)] [("alpha", 1)])).Perm
       (wordStatsOf 2 [("alpha", 1/4)] [("alpha", 1)])) :=
  ⟨by decide,
    c4_relative_frequency_formula 2 [("alpha", 1/4)] "alpha" 1 [("alpha", 1)] (by decide)⟩

/-- C6: the walker emits each base filename at most once, and a file is
emitted exactly when it is a regular entry file at some position of the walk
order such that no earlier regular entry file shares its base name (the first
such occurrence is emitted, every later one is silently skipped). -/
theorem c6_walker_dedups_by_base_name (fs : List FileInfo) :
    ((walkFiles fs).map FileInfo.base).Nodup ∧
    ∀ f : FileInfo, f ∈ walkFiles fs ↔
      ∃ pre post, fs = pre ++ f :: post ∧ accept f = true ∧
        f.base ∉ (pre.filter accept).map FileInfo.base := by
  constructor
  · exact (walkGo_nodup fs []).2
  · intro f
    rw [walkFiles, walkGo_mem]
    constructor
    · rintro ⟨pre, post, h1, h2, -, h4⟩
      exact ⟨pre, post, h1, h2, h4⟩
    · rintro ⟨pre, post, h1, h2, h4⟩
      exact ⟨pre, post, h1, h2, List.not_mem_nil _, h4⟩

/-- C7: the aggregation of successful results is order-independent — any two
arrival orders of the same multiset of results produce the same entry count,
extensionally the same merged word-count mapping, and the same earliest
date. -/
theorem c7_aggregation_order_independent (t : ℚ) (rs₁ rs₂ : List Result)
    (hp : rs₁.Perm rs₂) (hs : ∀ r ∈ rs₁, r.err = none) :
    ∃ st₁ st₂, aggregate t rs₁ = .ok st₁ ∧ aggregate t rs₂ = .ok st₂ ∧
      st₁.entryCount = st₂.entryCount ∧
      (∀ v, lookupNat st₁.wordMap v = lookupNat st₂.wordMap v) ∧
      st₁.minDate = st₂.minDate := by
  have hs₂ : ∀ r ∈ rs₂, r.err = none := fun r hr => hs r (hp.mem_iff.mpr hr)
  obtain ⟨st₁, hok₁, hec₁, hwm₁, hmd₁⟩ := aggGo_ok_of_success rs₁ ⟨0, [], t⟩ hs
  obtain ⟨st₂, hok₂, hec₂, hwm₂, hmd₂⟩ := aggGo_ok_of_success rs₂ ⟨0, [], t⟩ hs₂
  refine ⟨st₁, st₂, hok₁, hok₂, ?_, ?_, ?_⟩
  · rw [hec₁, hec₂, hp.length_eq]
  · intro v
    rw [hwm₁ v, hwm₂ v, (hp.map fun r => fmCount r.wordMap v).sum_eq]
  · rw [hmd₁, hmd₂, foldl_min_perm (hp.map Result.date)]

/-- Witness for C7 swapping two successful results. -/
theorem c7_aggregation_order_independent_witness :
    ([wResA, wResB] : List Result).Perm [wResB, wResA] ∧
    (∀ r ∈ [wResA, wResB], r.err = none) ∧
    (∃ st₁ st₂, aggregate 0 [wResA, wResB] = .ok st₁ ∧
      aggregate 0 [wResB, wResA] = .ok st₂ ∧
      st₁.entryCount = st₂.entryCount ∧
      (∀ v, lookupNat st₁.wordMap v = lookupNat st₂.wordMap v) ∧
      st₁.minDate = st₂.minDate) :=
  ⟨List.Perm.swap wResB wResA [], by decide,
    c7_aggregation_order_independent 0 [wResA, wResB] [wResB, wResA]
      (List.Perm.swap wResB wResA []) (by decide)⟩

/-- C10: the earliest tracked date starts at the aggregation start time `t`,
so the final value is the minimum of `t` and all entry dates: it is never
later than `t`, it is `t` or one of the entry dates, and an entry dated
strictly after `t` can never be the reported earliest date. -/
theorem c10_earliest_date_is_min (t : ℚ) (results : List Result) (st : AggState)
    (hAgg : aggregate t results = .ok st) :
    st.minDate ≤ t ∧ (∀ r ∈ results, st.minDate ≤ r.date) ∧
    (st.minDate = t ∨ ∃ r ∈ results, st.minDate = r.date) ∧
    (∀ r ∈ results, t < r.date → st.minDate ≠ r.date) := by
  have hs : ∀ r ∈ results, r.err = none := aggGo_ok_success hAgg
  obtain ⟨stf, hok, -, -, hmd⟩ := aggGo_ok_of_success results ⟨0, [], t⟩ hs
  have hok' : aggregate t results = .ok stf := hok
  have hst : st = stf := by
    have h := hAgg.symm.trans hok'
    injection h
  subst hst
  have hmd' : st.minDate = (results.map Result.date).foldl min t := hmd
  refine ⟨?_, ?_, ?_, ?_⟩
  · rw [hmd']
    exact foldl_min_le_init _ t
  · intro r hr
    rw [hmd']
    exact foldl_min_le_mem _ t r.date (List.mem_map_of_mem Result.date hr)
  · rw [hmd']
    rcases foldl_min_eq_init_or_mem (results.map Result.date) t with h | ⟨x, hx, hfx⟩
    · exact Or.inl h
    · obtain ⟨r, hr, rfl⟩ := List.mem_map.mp hx
      exact Or.inr ⟨r, hr, hfx⟩
  · intro r hr hlt heq
    have h1 : st.minDate ≤ t := by
      rw [hmd']
      exact foldl_min_le_init _ t
    exact absurd (heq ▸ h1) (not_le.mpr hlt)

/-- Witness for C10 at one successful result dated before the start time. -/
theorem c10_earliest_date_is_min_witness :
    aggregate 5 [wResA] = .ok ⟨1, [("alpha", 2)], 3⟩ ∧
    ((⟨1, [("alpha", 2)], 3⟩ : AggState).minDate ≤ 5 ∧
     (∀ r ∈ [wResA], (⟨1, [("alpha", 2)], 3⟩ : AggState).minDate ≤ r.date) ∧
     ((⟨1, [("alpha", 2)], 3⟩ : AggState).minDate = 5 ∨
       ∃ r ∈ [wResA], (⟨1, [("alpha", 2)], 3⟩ : AggState).minDate = r.date) ∧
     (∀ r ∈ [wResA], (5:ℚ) < r.date →
       (⟨1, [("alpha", 2)], 3⟩ : AggState).minDate ≠ r.date)) := by
  have hAggW : aggregate 5 [wResA] = .ok ⟨1, [("alpha", 2)], 3⟩ := by
    show aggGo ⟨0, [], 5⟩ [wResA] = _
    rw [aggGo, show wResA.err = none from rfl, aggGo]
    congr 1
  exact ⟨hAggW, c10_earliest_date_is_min 5 [wResA] _ hAggW⟩

/-- C9: when at least one entry was aggregated and every entry date lies less
than 24 hours before the clock reading `t`, the divisor
`floor(hoursSince(earliestDate)/24)` is zero and the percent-journaled
division is performed with that zero divisor, so the computed percentage is
not a finite number (modelled as `none`). -/
theorem c9_percent_not_finite_within_first_day (t : ℚ) (results : List Result)
    (refT : List (String × ℚ)) (enum : List (String × Nat))
    (hne : results ≠ []) (hs : ∀ r ∈ results, r.err = none)
    (hrecent : ∀ r ∈ results, t - r.date < 24) :
    (∀ st, aggregate t results = .ok st → ⌊(t - st.minDate) / 24⌋ = 0) ∧
    ∃ scal, scalarsOf (runGo t results none refT enum) = some scal ∧
      scal.percent = none := by
  obtain ⟨st, hok, hec, -, hmd⟩ := aggGo_ok_of_success results ⟨0, [], t⟩ hs
  have hok' : aggregate t results = .ok st := hok
  have hmd' : st.minDate = (results.map Result.date).foldl min t := hmd
  have hle : st.minDate ≤ t := by
    rw [hmd']
    exact foldl_min_le_init _ t
  have hgt : t - 24 < st.minDate := by
    rw [hmd']
    refine lt_foldl_min _ t _ (by linarith) ?_
    intro x hx
    obtain ⟨r, hr, rfl⟩ := List.mem_map.mp hx
    have := hrecent r hr
    linarith
  have hfloor : ⌊(t - st.minDate) / 24⌋ = 0 := by
    rw [Int.floor_eq_zero_iff]
    exact Set.mem_Ico.mpr ⟨div_nonneg (by linarith) (by norm_num),
      by rw [div_lt_one (by norm_num : (0:ℚ) < 24)]; linarith⟩
  refine ⟨?_, ?_⟩
  · intro st' hst'
    have h := hst'.symm.trans hok'
    injection h with h
    rw [← h] at hfloor
    exact hfloor
  · have hlen : results.length ≠ 0 := fun h => hne (List.eq_nil_of_length_eq_zero h)
    have hpos : 0 < st.entryCount := by
      have hec' : st.entryCount = results.length := by simpa using hec
      omega
    have hrun : runGo t results none refT enum =
        rankedStep (scalarsStep t st enum) refT enum := by
      unfold runGo
      rw [hok']
      simp [hpos]
    refine ⟨scalarsStep t st enum, ?_, ?_⟩
    · rw [hrun, scalarsOf_rankedStep]
    · simp only [scalarsStep]
      rw [hfloor]
      simp [floatDiv]

/-- Witness for C9 at one entry dated 12 hours before the clock reading. -/
theorem c9_percent_not_finite_within_first_day_witness :
    (([wResA] : List Result) ≠ []) ∧ (∀ r ∈ [wResA], r.err = none) ∧
    (∀ r ∈ [wResA], (12:ℚ) - r.date < 24) ∧
    ((∀ st, aggregate 12 [wResA] = .ok st → ⌊((12:ℚ) - st.minDate) / 24⌋ = 0) ∧
     ∃ scal, scalarsOf (runGo 12 [wResA] none [] [("alpha", 2)]) = some scal ∧
       scal.percent = none) :=
  ⟨by decide, by decide, by decide,
    c9_percent_not_finite_within_first_day 12 [wResA] [] [("alpha", 2)]
      (by decide) (by decide) (by decide)⟩

/-- C2 (amended): with the clock reading and reference table fixed, a rerun
over the same per-file results differs from the first run only in the merged
map's iteration order (a permutation); the scalar statistics are then
identical, and the ranked lists carry identical sequences of relative
frequencies — but the word lists themselves may differ when words tie on
relative frequency. -/
theorem c2_rerun_scalars_equal_freqs_equal (t : ℚ) (results : List Result)
    (wErr : Option String) (refT : List (String × ℚ))
    (enum₁ enum₂ : List (String × Nat)) (hp : enum₁.Perm enum₂) :
    scalarsOf (runGo t results wErr refT enum₁) =
      scalarsOf (runGo t results wErr refT enum₂) ∧
    freqSeqs (runGo t results wErr refT enum₁) =
      freqSeqs (runGo t results wErr refT enum₂) := by
  unfold runGo
  cases hagg : aggregate t results with
  | error e => exact ⟨rfl, rfl⟩
  | ok st =>
    cases wErr with
    | some e => exact ⟨rfl, rfl⟩
    | none =>
      by_cases hpos : 0 < st.entryCount
      · simp only [if_pos hpos]
        rw [scalarsStep_perm_eq t st hp]
        exact ⟨by rw [scalarsOf_rankedStep, scalarsOf_rankedStep],
          freqSeqs_rankedStep_eq _ refT hp⟩
      · simp [if_neg hpos]

/-- Witness for C2 (amended) at a one-word enumeration. -/
theorem c2_rerun_scalars_equal_freqs_equal_witness :
    ([("alpha", 2)] : List (String × Nat)).Perm [("alpha", 2)] ∧
    (scalarsOf (runGo 0 [wResA] none [] [("alpha", 2)]) =
       scalarsOf (runGo 0 [wResA] none [] [("alpha", 2)]) ∧
     freqSeqs (runGo 0 [wResA] none [] [("alpha", 2)]) =
       freqSeqs (runGo 0 [wResA] none [] [("alpha", 2)])) :=
  ⟨List.Perm.refl _,
    c2_rerun_scalars_equal_freqs_equal 0 [wResA] none [] _ _ (List.Perm.refl _)⟩

set_option maxRecDepth 40000 in
/-- C2 counterexample: the claim as stated — identical ranked lists on both
runs — fails.  Over one unchanged result carrying 100 distinct words that all
tie at relative frequency 0 (none appears in the non-empty reference table),
iterating the same merged word map in two different orders (Go map iteration
order is randomized) yields the same scalar statistics but different ranked
lists: `sort.Slice` compares only by relative frequency, so tied words keep
their iteration order. -/
theorem c2_counterexample_tied_words_reorder :
    mergeMap [] cWords = cWords ∧
    cWords.reverse.Perm cWords ∧
    scalarsOf (runGo 24 [cResult] none cRef cWords) =
      scalarsOf (runGo 24 [cResult] none cRef cWords.reverse) ∧
    listsOf (runGo 24 [cResult] none cRef cWords) ≠
      listsOf (runGo 24 [cResult] none cRef cWords.reverse) :=
  ⟨by decide, List.reverse_perm cWords, by decide, by decide⟩

end Gurnel
